import Mathlib

/-!
Verification of the RALPH Runner task orchestrator.

The definitions below are a shallow embedding of the orchestration core of
the `vscode-copilot-ralph-runner` extension.  Two near-identical variants of
the extension exist in the repository: one using a durable lease file
(`.ralph/task-<id>-status`) polled for the literal `completed` (the
signal-based strategy), and one using a workspace-activity idle heuristic.
Pure functions (the STATUS.md row scheduler, the lease-file decoder, the
quick-status counters, the STATUS.md row rewriter) are translated directly;
the polling wait loops are modelled with an explicit discrete clock that
advances by `pollInterval` per sleep, with fuel used purely as a termination
device (a sufficiency lemma shows the fuel given at top level never runs out
when the poll interval is positive).
-/

/-! ## Data model (src/src/extension.ts lines 31-48, src/unnamed/part_000 lines 32-49) -/

/-- `StepStatus`: the five progress states of a tracked step
(`'pending' | 'in-progress' | 'done' | 'failed' | 'skipped'`). -/
inductive StepStatus where
  | pending
  | inProgress
  | done
  | failed
  | skipped
deriving DecidableEq, Repr

/-- `TrackedStep`: one parsed row of the STATUS.md tracking table. -/
structure TrackedStep where
  id : Nat
  status : StepStatus
  timestamp : String
  notes : String
deriving DecidableEq, Repr

/-- The comparator `(a, b) => a.id - b.id` used by `findNextPending`,
as the ordering relation it sorts by. -/
def stepLE (a b : TrackedStep) : Prop := a.id ≤ b.id

instance : DecidableRel stepLE := fun a b => Nat.decLe a.id b.id

instance : IsTotal TrackedStep stepLE := ⟨fun a b => Nat.le_total a.id b.id⟩

instance : IsTrans TrackedStep stepLE := ⟨fun _ _ _ hab hbc => Nat.le_trans hab hbc⟩

/-- The predicate `s.status !== 'done' && s.status !== 'skipped'` from
`findNextPending`. -/
def isEligible (s : TrackedStep) : Bool :=
  !(s.status == StepStatus.done) && !(s.status == StepStatus.skipped)

/-- `findNextPending` (src/src/extension.ts lines 644-652, src/unnamed/part_000
lines 766-774): copy the tracked rows, sort them ascending by id, and return
the first row that is neither `done` nor `skipped`, or `null` if none. -/
def findNextPending (tracked : List TrackedStep) : Option TrackedStep :=
  (List.insertionSort stepLE tracked).find? isEligible

/-! ## Lease files (src/unnamed/part_000, `RalphStateManager`) -/

/-- The tri-state result of reading a `.ralph/task-<id>-status` file. -/
inductive LeaseStatus where
  | inprogress
  | completed
  | none
deriving DecidableEq, Repr

/-- Remove leading and trailing whitespace from a character list (the
behaviour of `String.prototype.trim` on ASCII text: space, tab, CR, LF). -/
def trimChars (l : List Char) : List Char :=
  ((l.dropWhile Char.isWhitespace).reverse.dropWhile Char.isWhitespace).reverse

/-- `content.trim()` as used on lease-file contents, implemented on the
string's character list. -/
def strTrim (s : String) : String := String.mk (trimChars s.data)

/-- `RalphStateManager.getTaskStatus` (src/unnamed/part_000 lines 110-117):
read the status file, trim it, and return `inprogress` or `completed` when the
trimmed content equals that literal; `none` for any other content and for an
absent or unreadable file (modelled as `Option.none` input). -/
def getTaskStatus (content : Option String) : LeaseStatus :=
  match content with
  | Option.none => LeaseStatus.none
  | Option.some c =>
    if strTrim c = "inprogress" then LeaseStatus.inprogress
    else if strTrim c = "completed" then LeaseStatus.completed
    else LeaseStatus.none

/-- The `.ralph` directory as a list of `task-<id>-status` entries in scan
order: each entry is the task id parsed from the file name, paired with the
file's content. -/
abbrev LeaseStore := List (Nat × String)

/-- Reading the file `task-<id>-status` from the directory: the content of the
first entry carrying that id (file names are unique, so at most one exists). -/
def storeRead (store : LeaseStore) (taskId : Nat) : Option String :=
  (store.find? (fun e => e.1 == taskId)).map (fun e => e.2)

/-- `RalphStateManager.getTaskStatus(workspaceRoot, taskId)` applied to the
store: decode the file found for `taskId`. -/
def taskStatusIn (store : LeaseStore) (taskId : Nat) : LeaseStatus :=
  getTaskStatus (storeRead store taskId)

/-- `RalphStateManager.getInProgressTaskId` (src/unnamed/part_000 lines
123-143): scan the directory entries in order and return the id of the first
task whose status file reads `inprogress`, or `null` if none. -/
def getInProgressTaskId (store : LeaseStore) : Option Nat :=
  (store.find? (fun e => taskStatusIn store e.1 == LeaseStatus.inprogress)).map (fun e => e.1)

/-- `RalphStateManager.clearStalledTask` (src/unnamed/part_000 lines 154-159):
delete the status file for `taskId` (entries keyed by any other id are kept). -/
def clearStalledTask (store : LeaseStore) (taskId : Nat) : LeaseStore :=
  store.filter (fun e => !(e.1 == taskId))

/-- Outcome of the startup-recovery fragment of `startRalph`: either the run
continues with the (possibly cleaned) lease store, or it aborts leaving the
store as-is. -/
inductive StartupDecision where
  | proceed (store : LeaseStore)
  | abort (store : LeaseStore)
deriving DecidableEq, Repr

/-- Startup recovery in `startRalph` (src/unnamed/part_000 lines 256-268):
if some task is on disk as `inprogress`, show the stalled-task warning; the
operator either picks `Clear & Retry` (delete that task's status file, then
continue) or cancels (return, leaving the store untouched).  The `Bool` in
the result records whether the operator was prompted. -/
def startupRecovery (store : LeaseStore) (operatorClears : Bool) :
    StartupDecision × Bool :=
  match getInProgressTaskId store with
  | Option.none => (StartupDecision.proceed store, false)
  | Option.some stalled =>
    if operatorClears then
      (StartupDecision.proceed (clearStalledTask store stalled), true)
    else
      (StartupDecision.abort store, true)

/-- Gate at the top of `startRalph` (src/src/extension.ts lines 162-165,
src/unnamed/part_000 lines 248-251): `if (!fs.existsSync(planPath) ||
!fs.existsSync(statePath))` show an error message and return before the plan
is parsed or any task executes. -/
inductive StartGate where
  | missingFiles
  | proceed
deriving DecidableEq, Repr

/-- The file-existence check performed by `startRalph` before anything else
touches the plan or the progress document. -/
def startFilesGate (planExists stateExists : Bool) : StartGate :=
  if !planExists || !stateExists then StartGate.missingFiles else StartGate.proceed

/-! ## Completion detection (`waitForCopilotCompletion`, both strategies)

Both wait loops in the source share one shape (src/unnamed/part_000 lines
579-610 for the signal strategy, src/src/extension.ts lines 461-493 for the
activity-idle heuristic): while elapsed time is below `timeout`, check the
cancellation token (throwing when requested), sleep `pollInterval`, skip the
check while elapsed time is below `minimumWait`, then test the
strategy-specific success condition; leaving the loop because the timeout
elapsed ends the wait.  Time is modelled discretely: elapsed time advances by
`pollInterval` per sleep, and strategy inputs (lease-file content, idle
duration, cancellation flag) are functions of elapsed time.  `fuel` is only a
termination bound: the top-level fuel of `timeout + 1` suffices whenever
`pollInterval` is positive, since elapsed time grows by at least one per
iteration (see `pollLoopAux_timedOut_of_never`). -/

/-- How one execution of a wait loop ended: strategy-specific success at a
given elapsed time, a cancellation observed at a given elapsed time, or the
timeout check failing at a given elapsed time. -/
inductive PollOutcome where
  | success (e : Nat)
  | cancelled (e : Nat)
  | timedOut (e : Nat)
deriving DecidableEq, Repr

/-- The shared polling loop, parametrised by the strategy's success check.
`e` is the elapsed time at loop entry. -/
def pollLoopAux (timeout poll minWait : Nat) (cancel : Nat → Bool)
    (check : Nat → Bool) : Nat → Nat → Option PollOutcome
  | 0, _ => Option.none
  | fuel + 1, e =>
    if e < timeout then
      if cancel e then Option.some (PollOutcome.cancelled e)
      else if e + poll < minWait then pollLoopAux timeout poll minWait cancel check fuel (e + poll)
      else if check (e + poll) then Option.some (PollOutcome.success (e + poll))
      else pollLoopAux timeout poll minWait cancel check fuel (e + poll)
    else Option.some (PollOutcome.timedOut e)

/-- Tunables of the signal-strategy variant (src/unnamed/part_000 lines
19-28): `copilotTimeoutMs`, `copilotResponsePollMs`, `copilotMinWaitMs`. -/
structure WaitConfig where
  timeout : Nat
  poll : Nat
  minWait : Nat
deriving DecidableEq, Repr

/-- Tunables of the heuristic variant (src/src/extension.ts lines 17-27),
which add `copilotIdleThresholdMs`. -/
structure HeurConfig where
  timeout : Nat
  poll : Nat
  minWait : Nat
  idleThreshold : Nat
deriving DecidableEq, Repr

/-- `waitForCopilotCompletion` of the signal strategy (src/unnamed/part_000
lines 579-610): poll the lease file of the dispatched task until it decodes to
`completed`.  `fileAt e` is the content of `.ralph/task-<id>-status` as it
would be read at elapsed time `e`.  A `success` outcome is a normal return, a
`cancelled` outcome is the thrown `Cancelled by user` error, and a `timedOut`
outcome is the thrown `Copilot timed out on task <id>` error. -/
def waitForCopilotCompletionSignal (cfg : WaitConfig) (cancel : Nat → Bool)
    (fileAt : Nat → Option String) : Option PollOutcome :=
  pollLoopAux cfg.timeout cfg.poll cfg.minWait cancel
    (fun e => getTaskStatus (fileAt e) == LeaseStatus.completed) (cfg.timeout + 1) 0

/-- `waitForCopilotCompletion` of the heuristic strategy
(src/src/extension.ts lines 461-493): poll until the workspace has been idle
for at least `idleThreshold`.  `idle e` is `activityTracker.getIdleTimeMs()`
at elapsed time `e`.  Both `success` and `timedOut` are normal returns here
(the timeout path logs and falls through); only `cancelled` is an error. -/
def waitForCopilotCompletionHeuristic (cfg : HeurConfig) (cancel : Nat → Bool)
    (idle : Nat → Nat) : Option PollOutcome :=
  pollLoopAux cfg.timeout cfg.poll cfg.minWait cancel
    (fun e => decide (cfg.idleThreshold ≤ idle e)) (cfg.timeout + 1) 0

/-- Whether the heuristic `waitForCopilotCompletion` returns without throwing:
it throws only on the cancellation path; hitting `timeout` logs and returns
normally (best-effort success). -/
def heuristicReturnsNormally : PollOutcome → Bool
  | PollOutcome.cancelled _ => false
  | _ => true

/-! ## Per-step outcome recording (signal variant, src/unnamed/part_000 lines 336-357) -/

/-- What the orchestrator durably records after handling one copilot-delegated
step: the final content written to that task's `.ralph/task-<id>-status` file,
and the status/notes written into the task's STATUS.md row. -/
structure StepOutcomeRecord where
  leaseContent : String
  progressStatus : StepStatus
  progressNotes : String
deriving DecidableEq, Repr

/-- The try/catch around `executeStep` for a copilot-delegated step in the
signal variant of `startRalph` (src/unnamed/part_000 lines 341-357): on a
normal return, `setCompleted` and record `done`; on a thrown error (timeout or
cancellation inside `waitForCopilotCompletion`), `setCompleted` anyway ("Always
release the inprogress lock") and record `failed` with the error message as
notes.  Error messages are those thrown at lines 587 and 609. -/
def runCopilotStepSignal (cfg : WaitConfig) (taskId : Nat) (cancel : Nat → Bool)
    (fileAt : Nat → Option String) : Option StepOutcomeRecord :=
  (waitForCopilotCompletionSignal cfg cancel fileAt).map fun out =>
    match out with
    | PollOutcome.success _ =>
      { leaseContent := "completed", progressStatus := StepStatus.done, progressNotes := "" }
    | PollOutcome.cancelled _ =>
      { leaseContent := "completed", progressStatus := StepStatus.failed,
        progressNotes := "Cancelled by user" }
    | PollOutcome.timedOut _ =>
      { leaseContent := "completed", progressStatus := StepStatus.failed,
        progressNotes := "Copilot timed out on task " ++ Nat.repr taskId }

/-! ## STATUS.md row rewriting (`updateStepStatus`)

`updateStepStatus` (src/src/extension.ts lines 654-670, src/unnamed/part_000
lines 776-792) rewrites the progress document with
`content.replace(rowRegex, replacement)` where `rowRegex` carries the `m` flag
but not `g`: only the first matching table row is replaced.  The document is
modelled as its list of lines, each line a list of characters; the anchored
pattern
``^(\|\s*<id>\s*\|[^|]*\|[^|]*\|)\s*`\w[\w-]*`\s*\|([^|]*)\|([^|]*)\|$``
is implemented by a deterministic matcher: since every character class in the
pattern excludes `|`, the pattern's seven `|` literals must line up with the
line's `|` characters, so a line matches exactly when splitting it at `|`
yields six cells between a leading and a trailing `|`, with cell 1 equal to
the id's digits up to surrounding whitespace and cell 4 a backtick-quoted
word up to surrounding whitespace. -/

/-- A line of the progress document, as its characters. -/
abbrev Line := List Char

/-- Split a line at every `|` character (the cell boundaries of a table row). -/
def splitCells : Line → List Line
  | [] => [[]]
  | c :: rest =>
    if c = '|' then [] :: splitCells rest
    else
      match splitCells rest with
      | s :: ss => (c :: s) :: ss
      | [] => [[c]]

/-- The regex class `\w`: ASCII letters, digits and underscore. -/
def wordChar (c : Char) : Bool := c.isAlphanum || c == '_'

/-- The backtick character quoting the status cell. -/
def backtick : Char := Char.ofNat 96

/-- After the leading backtick and first word character: zero or more
`[\w-]` characters followed by the closing backtick. -/
def wordTail : Line → Bool
  | [] => false
  | [c] => c == backtick
  | c :: rest => (wordChar c || c == '-') && wordTail rest

/-- Matches ``\x60\w[\w-]*\x60``: a backtick-quoted nonempty word. -/
def backtickedWord (l : Line) : Bool :=
  match l with
  | b :: c :: rest => b == backtick && wordChar c && wordTail rest
  | _ => false

/-- The six cells of a table row: present exactly when the line consists of
seven `|` characters with nothing before the first or after the last. -/
def rowCells (line : Line) : Option (Line × Line × Line × Line × Line × Line) :=
  match splitCells line with
  | [[], c1, c2, c3, c4, c5, c6, []] => Option.some (c1, c2, c3, c4, c5, c6)
  | _ => Option.none

/-- Whether a line matches the row pattern interpolated with the digit string
`idStr`: six cells, cell 1 is `idStr` up to whitespace padding, cell 4 is a
backtick-quoted word up to whitespace padding. -/
def rowMatches (idStr : Line) (line : Line) : Bool :=
  match rowCells line with
  | Option.some (c1, _, _, c4, _, _) =>
    trimChars c1 == idStr && backtickedWord (trimChars c4)
  | Option.none => false

/-- The id cell of a line, trimmed — `none` when the line is not a table row.
This is how `parseState` (the `(\d+)` capture of its row regex) keys rows. -/
def rowIdCell (line : Line) : Option Line :=
  match rowCells line with
  | Option.some (c1, _, _, _, _, _) => Option.some (trimChars c1)
  | Option.none => Option.none

/-- The five status literals as written between backticks in STATUS.md rows. -/
def statusLiteral : StepStatus → String
  | StepStatus.pending => "pending"
  | StepStatus.inProgress => "in-progress"
  | StepStatus.done => "done"
  | StepStatus.failed => "failed"
  | StepStatus.skipped => "skipped"

/-- The replacement `` `$1 \x60${status}\x60 | ${timestamp} | ${notes} |` ``:
group 1 is the prefix of the row through its fourth `|`. -/
def updatedRow (statusStr timestamp notes : String) (line : Line) : Line :=
  match rowCells line with
  | Option.some (c1, c2, c3, _, _, _) =>
    '|' :: c1 ++ '|' :: c2 ++ '|' :: c3 ++ ['|', ' ', backtick] ++ statusStr.toList
      ++ [backtick] ++ (" | ").toList ++ timestamp.toList ++ (" | ").toList
      ++ notes.toList ++ (" |").toList
  | Option.none => line

/-- `String.prototype.replace` with a non-global regex on the line model:
rewrite the first line satisfying `p`, leaving every other line untouched. -/
def replaceFirstLine (p : Line → Bool) (f : Line → Line) : List Line → List Line
  | [] => []
  | l :: ls => if p l then f l :: ls else l :: replaceFirstLine p f ls

/-- `updateStepStatus(statePath, stepId, status, notes)`: compute the
timestamp (the current time `now` on terminal transitions, empty otherwise)
and replace the first row whose id cell is `stepId`'s digits with the rebuilt
row. -/
def updateStepStatus (now : String) (stepId : Nat) (status : StepStatus)
    (notes : String) (doc : List Line) : List Line :=
  let timestamp := if status == StepStatus.done || status == StepStatus.failed then now else ""
  replaceFirstLine (rowMatches (Nat.repr stepId).toList)
    (updatedRow (statusLiteral status) timestamp notes) doc

/-! ## Quick-status summary (`updateQuickStatus`)

`updateQuickStatus` (src/src/extension.ts lines 672-707, src/unnamed/part_000
lines 794-829) re-parses the tracking table, counts rows per status, and
rewrites the five metric rows of the Quick Status table.  The rewritten rows
are modelled as the strings substituted into the document. -/

/-- The five metric rows written back into the Quick Status table. -/
structure QuickStatusLines where
  totalLine : String
  completedLine : String
  inProgressLine : String
  failedLine : String
  pendingLine : String
deriving DecidableEq, Repr

/-- The counting and row construction of `updateQuickStatus`: `completed`,
`inProgress`, `failed`, `pending` and `skipped` each count their own status;
the written `Pending` row shows `pending + skipped` and no row reports
`skipped` on its own. -/
def updateQuickStatusLines (tracked : List TrackedStep) : QuickStatusLines :=
  let total := tracked.length
  let completed := (tracked.filter (fun s => s.status == StepStatus.done)).length
  let inProgress := (tracked.filter (fun s => s.status == StepStatus.inProgress)).length
  let failed := (tracked.filter (fun s => s.status == StepStatus.failed)).length
  let pending := (tracked.filter (fun s => s.status == StepStatus.pending)).length
  let skipped := (tracked.filter (fun s => s.status == StepStatus.skipped)).length
  { totalLine := "| Total Steps | " ++ Nat.repr total ++ " |"
    completedLine := "| Completed | " ++ Nat.repr completed ++ " |"
    inProgressLine := "| In Progress | " ++ Nat.repr inProgress ++ " |"
    failedLine := "| Failed | " ++ Nat.repr failed ++ " |"
    pendingLine := "| Pending | " ++ Nat.repr (pending + skipped) ++ " |" }

/-! ## Theorems -/

/-- On a list sorted ascending by id, `find?` returns an element whose id is
minimal among all elements satisfying the predicate. -/
theorem find?_min_of_sorted {p : TrackedStep → Bool} {l : List TrackedStep}
    (hs : l.Sorted stepLE) {s : TrackedStep} (h : l.find? p = Option.some s) :
    ∀ t ∈ l, p t = true → s.id ≤ t.id := by
  induction l with
  | nil => simp at h
  | cons a l ih =>
    cases hp : p a with
    | false =>
      rw [List.find?_cons_of_neg _ (by simp [hp])] at h
      intro t ht hpt
      rcases List.mem_cons.mp ht with rfl | ht'
      · rw [hp] at hpt; cases hpt
      · exact ih hs.of_cons h t ht' hpt
    | true =>
      rw [List.find?_cons_of_pos _ hp] at h
      injection h with h
      subst h
      intro t ht _
      rcases List.mem_cons.mp ht with rfl | ht'
      · exact Nat.le_refl _
      · exact List.rel_of_sorted_cons hs t ht'

/-- C1: for every progress record, `findNextPending` selects the task with the
lowest id whose status is neither `done` nor `skipped` — it is `null` exactly
when no such task exists, and a returned task is an eligible member of the
record whose id is minimal among all eligible entries, regardless of the
statuses of higher-id tasks. -/
theorem findNextPending_spec (tracked : List TrackedStep) :
    (∀ s, isEligible s = true ↔ (s.status ≠ StepStatus.done ∧ s.status ≠ StepStatus.skipped)) ∧
    (findNextPending tracked = Option.none ↔ ∀ s ∈ tracked, isEligible s = false) ∧
    (∀ s, findNextPending tracked = Option.some s →
      s ∈ tracked ∧ isEligible s = true ∧
      ∀ t ∈ tracked, isEligible t = true → s.id ≤ t.id) := by
  refine ⟨?_, ?_, ?_⟩
  · intro s
    cases hs : s.status <;> simp [isEligible, hs]
  · rw [findNextPending, List.find?_eq_none]
    constructor
    · intro h s hsmem
      have := h s ((List.perm_insertionSort stepLE tracked).mem_iff.mpr hsmem)
      simpa using this
    · intro h s hsmem
      have := h s ((List.perm_insertionSort stepLE tracked).mem_iff.mp hsmem)
      simp [this]
  · intro s h
    rw [findNextPending] at h
    refine ⟨(List.perm_insertionSort stepLE tracked).mem_iff.mp (List.mem_of_find?_eq_some h),
      List.find?_some h, ?_⟩
    intro t ht hel
    exact find?_min_of_sorted (List.sorted_insertionSort stepLE tracked) h t
      ((List.perm_insertionSort stepLE tracked).mem_iff.mpr ht) hel

/-- C1 witness: on a concrete record where task 1 is done and tasks 2, 3 are
not, `findNextPending` picks task 2 and the theorem's conclusions hold. -/
theorem findNextPending_spec_witness :
    (⟨2, StepStatus.failed, "", ""⟩ : TrackedStep) ∈
      ([⟨3, StepStatus.pending, "", ""⟩, ⟨1, StepStatus.done, "", ""⟩,
        ⟨2, StepStatus.failed, "", ""⟩] : List TrackedStep) ∧
    isEligible ⟨2, StepStatus.failed, "", ""⟩ = true ∧
    ∀ t ∈ ([⟨3, StepStatus.pending, "", ""⟩, ⟨1, StepStatus.done, "", ""⟩,
        ⟨2, StepStatus.failed, "", ""⟩] : List TrackedStep),
      isEligible t = true → (2 : Nat) ≤ t.id :=
  (findNextPending_spec _).2.2 _ (by decide)

/-- A `success` outcome of the polling loop can only be produced at an elapsed
time past `minWait` at which the strategy check holds: the `continue` guard
skips every earlier tick. -/
theorem pollLoopAux_success {timeout poll minWait : Nat} {cancel check : Nat → Bool} :
    ∀ (fuel e0 : Nat) {e : Nat},
      pollLoopAux timeout poll minWait cancel check fuel e0 =
        Option.some (PollOutcome.success e) →
      minWait ≤ e ∧ check e = true := by
  intro fuel
  induction fuel with
  | zero => intro e0 e h; exact absurd h (by simp [pollLoopAux])
  | succ fuel ih =>
    intro e0 e h
    rw [pollLoopAux] at h
    by_cases h1 : e0 < timeout
    · rw [if_pos h1] at h
      by_cases h2 : cancel e0 = true
      · rw [if_pos h2] at h; exact absurd h (by simp)
      · rw [if_neg h2] at h
        by_cases h3 : e0 + poll < minWait
        · rw [if_pos h3] at h; exact ih _ h
        · rw [if_neg h3] at h
          by_cases h4 : check (e0 + poll) = true
          · rw [if_pos h4] at h
            injection h with h
            injection h with h
            subst h
            exact ⟨Nat.le_of_not_lt h3, h4⟩
          · rw [if_neg h4] at h; exact ih _ h
    · rw [if_neg h1] at h; exact absurd h (by simp)

/-- When the strategy check never holds and cancellation is never requested,
the polling loop (given enough fuel, which a positive poll interval
guarantees) ends in the `timedOut` outcome, at an elapsed time of at least
`timeout`. -/
theorem pollLoopAux_timedOut_of_never {timeout poll minWait : Nat}
    {cancel check : Nat → Bool} (hp : 0 < poll) (hc : ∀ t, cancel t = false)
    (hk : ∀ t, check t = false) :
    ∀ (fuel e0 : Nat), timeout - e0 < fuel →
      ∃ r, pollLoopAux timeout poll minWait cancel check fuel e0 =
        Option.some (PollOutcome.timedOut r) ∧ timeout ≤ r := by
  intro fuel
  induction fuel with
  | zero => intro e0 h; omega
  | succ fuel ih =>
    intro e0 hfe
    rw [pollLoopAux]
    by_cases h1 : e0 < timeout
    · rw [if_pos h1, hc e0, if_neg Bool.false_ne_true]
      by_cases h3 : e0 + poll < minWait
      · rw [if_pos h3]; exact ih _ (by omega)
      · rw [if_neg h3, hk (e0 + poll), if_neg Bool.false_ne_true]
        exact ih _ (by omega)
    · rw [if_neg h1]
      exact ⟨e0, rfl, Nat.le_of_not_lt h1⟩

/-- Starting from elapsed time `e0`, if the first tick satisfying
"past `minWait` and check holds" is tick `j + 1` (ticks are `e0 + i * poll`),
and the loop is still running at tick `j`, the polling loop succeeds exactly
at that tick. -/
theorem pollLoopAux_first_success {timeout poll minWait : Nat}
    {cancel check : Nat → Bool} (hc : ∀ t, cancel t = false) :
    ∀ (j fuel e0 : Nat), j < fuel → e0 + j * poll < timeout →
      (∀ i < j, ¬(minWait ≤ e0 + (i + 1) * poll ∧ check (e0 + (i + 1) * poll) = true)) →
      minWait ≤ e0 + (j + 1) * poll → check (e0 + (j + 1) * poll) = true →
      pollLoopAux timeout poll minWait cancel check fuel e0 =
        Option.some (PollOutcome.success (e0 + (j + 1) * poll)) := by
  intro j
  induction j with
  | zero =>
    intro fuel e0 hjf h1 _hno h2 h3
    obtain ⟨fuel, rfl⟩ : ∃ f, fuel = f + 1 := ⟨fuel - 1, by omega⟩
    rw [pollLoopAux]
    simp only [Nat.zero_add, Nat.one_mul] at h2 h3 ⊢
    have h1' : e0 < timeout := by simpa using h1
    rw [if_pos h1', hc e0, if_neg Bool.false_ne_true,
      if_neg (Nat.not_lt.mpr h2), if_pos h3]
  | succ j ih =>
    intro fuel e0 hjf h1 hno h2 h3
    obtain ⟨fuel, rfl⟩ : ∃ f, fuel = f + 1 := ⟨fuel - 1, by omega⟩
    rw [pollLoopAux]
    have h1' : e0 < timeout :=
      Nat.lt_of_le_of_lt (Nat.le_add_right e0 ((j + 1) * poll)) h1
    rw [if_pos h1', hc e0, if_neg Bool.false_ne_true]
    have hni := hno 0 (Nat.succ_pos j)
    simp only [Nat.zero_add, Nat.one_mul] at hni
    have hrec : pollLoopAux timeout poll minWait cancel check fuel (e0 + poll) =
        Option.some (PollOutcome.success (e0 + poll + (j + 1) * poll)) := by
      apply ih fuel (e0 + poll) (by omega)
      · have hx : e0 + poll + j * poll = e0 + (j + 1) * poll := by ring
        rw [hx]; exact h1
      · intro i hij
        have hx : e0 + poll + (i + 1) * poll = e0 + (i + 1 + 1) * poll := by ring
        rw [hx]
        exact hno (i + 1) (by omega)
      · have hx : e0 + poll + (j + 1) * poll = e0 + (j + 1 + 1) * poll := by ring
        rw [hx]; exact h2
      · have hx : e0 + poll + (j + 1) * poll = e0 + (j + 1 + 1) * poll := by ring
        rw [hx]; exact h3
    have hgoal : e0 + poll + (j + 1) * poll = e0 + (j + 1 + 1) * poll := by ring
    rw [hgoal] at hrec
    by_cases hmw : e0 + poll < minWait
    · rw [if_pos hmw]; exact hrec
    · rw [if_neg hmw]
      have hkf : check (e0 + poll) = false := by
        cases hck : check (e0 + poll) with
        | false => rfl
        | true => exact absurd ⟨Nat.le_of_not_lt hmw, hck⟩ hni
      rw [hkf, if_neg Bool.false_ne_true]
      exact hrec

/-- C2: in the signal-based strategy, if the lease file for the dispatched
task never reads `completed`, then (with cancellation never requested and a
positive poll interval) `waitForCopilotCompletion` ends by raising the timeout
error — the loop exits via `timedOut` at an elapsed time of at least
`timeout` — and the orchestrator's catch block records the task's progress
entry as `failed` with the message `Copilot timed out on task <id>` in its
notes, while the lease file is written to the literal `completed`, not left
`inprogress`. -/
theorem signal_timeout_records_failed (cfg : WaitConfig) (taskId : Nat)
    (cancel : Nat → Bool) (fileAt : Nat → Option String)
    (hp : 0 < cfg.poll) (hc : ∀ e, cancel e = false)
    (hnc : ∀ e, getTaskStatus (fileAt e) ≠ LeaseStatus.completed) :
    (∃ e, waitForCopilotCompletionSignal cfg cancel fileAt =
        Option.some (PollOutcome.timedOut e) ∧ cfg.timeout ≤ e) ∧
    runCopilotStepSignal cfg taskId cancel fileAt =
      Option.some
        { leaseContent := "completed"
          progressStatus := StepStatus.failed
          progressNotes := "Copilot timed out on task " ++ Nat.repr taskId } := by
  have hk : ∀ t, (getTaskStatus (fileAt t) == LeaseStatus.completed) = false := by
    intro t
    cases hg : getTaskStatus (fileAt t) with
    | completed => exact absurd hg (hnc t)
    | inprogress => rfl
    | none => rfl
  obtain ⟨r, hr, hle⟩ :=
    pollLoopAux_timedOut_of_never hp hc hk (cfg.timeout + 1) 0
      (show cfg.timeout - 0 < cfg.timeout + 1 by omega)
  have hw : waitForCopilotCompletionSignal cfg cancel fileAt =
      Option.some (PollOutcome.timedOut r) := hr
  refine ⟨⟨r, hw, hle⟩, ?_⟩
  unfold runCopilotStepSignal
  rw [hw]
  rfl

/-- C2 witness: with `timeout = 10`, `poll = 5`, `minWait = 3` and a lease
file that is always absent, task 7's wait times out and the recorded outcome
is `failed` with the timeout message, lease written `completed`. -/
theorem signal_timeout_records_failed_witness :
    (∃ e, waitForCopilotCompletionSignal ⟨10, 5, 3⟩ (fun _ => false) (fun _ => Option.none) =
        Option.some (PollOutcome.timedOut e) ∧ 10 ≤ e) ∧
    runCopilotStepSignal ⟨10, 5, 3⟩ 7 (fun _ => false) (fun _ => Option.none) =
      Option.some
        { leaseContent := "completed"
          progressStatus := StepStatus.failed
          progressNotes := "Copilot timed out on task " ++ Nat.repr 7 } :=
  signal_timeout_records_failed ⟨10, 5, 3⟩ 7 (fun _ => false) (fun _ => Option.none)
    (by decide) (fun _ => rfl)
    (fun _ => show LeaseStatus.none ≠ LeaseStatus.completed by decide)

/-- C6 counterexample: cancellation requested while task 4's dispatch awaits
completion does not leave the lease reading `in-progress`: the catch block in
`startRalph` writes `completed` to the lease and records the step `failed`
with the `Cancelled by user` note, so the claim that the run ends with the
lease still `in-progress` is false on the code. -/
theorem cancellation_lease_cex :
    runCopilotStepSignal ⟨10, 5, 3⟩ 4 (fun _ => true) (fun _ => Option.none) =
      Option.some
        { leaseContent := "completed"
          progressStatus := StepStatus.failed
          progressNotes := "Cancelled by user" } ∧
    getTaskStatus (Option.some "completed") = LeaseStatus.completed ∧
    LeaseStatus.completed ≠ LeaseStatus.inprogress := by
  refine ⟨by decide, by decide, by decide⟩

/-- C6 amended: when cancellation is observed inside the signal-strategy
`waitForCopilotCompletion`, the thrown `Cancelled by user` error is caught by
the per-step handler, which writes the lease to `completed` (releasing it)
and records the task's progress entry as `failed` with the cancellation
message; no stale `in-progress` lease remains from the awaited task, so
startup recovery on the next run has nothing to resolve for it. -/
theorem cancellation_releases_lease (cfg : WaitConfig) (taskId : Nat)
    (cancel : Nat → Bool) (fileAt : Nat → Option String) (e : Nat)
    (h : waitForCopilotCompletionSignal cfg cancel fileAt =
      Option.some (PollOutcome.cancelled e)) :
    runCopilotStepSignal cfg taskId cancel fileAt =
      Option.some
        { leaseContent := "completed"
          progressStatus := StepStatus.failed
          progressNotes := "Cancelled by user" } := by
  unfold runCopilotStepSignal
  rw [h]
  rfl

/-- C6 witness: the amended theorem applied to a concrete cancelled run. -/
theorem cancellation_releases_lease_witness :
    runCopilotStepSignal ⟨10, 5, 3⟩ 9 (fun _ => true) (fun _ => Option.none) =
      Option.some
        { leaseContent := "completed"
          progressStatus := StepStatus.failed
          progressNotes := "Cancelled by user" } :=
  cancellation_releases_lease ⟨10, 5, 3⟩ 9 (fun _ => true) (fun _ => Option.none) 0 (by decide)

/-- C4 counterexample: in the heuristic strategy with `timeout = 10` below
`minimumWait = 15`, the detector's timeout fall-through returns normally — a
best-effort success decision — at elapsed time 10, before `minimumWait` has
elapsed, so "never reaches a success decision before minimumWait for every
configuration" is false on the code. -/
theorem heuristic_success_before_minWait_cex :
    waitForCopilotCompletionHeuristic ⟨10, 5, 15, 30⟩ (fun _ => false) (fun _ => 0) =
      Option.some (PollOutcome.timedOut 10) ∧
    heuristicReturnsNormally (PollOutcome.timedOut 10) = true ∧ 10 < 15 := by
  refine ⟨by decide, rfl, by decide⟩

/-- C4 amended: for both strategies and every configuration, a `success`
outcome of the completion detector — the lease reading `completed` in the
signal strategy, the idle threshold being met in the heuristic strategy —
never occurs before `minimumWait` has elapsed since dispatch; however, the
heuristic strategy's timeout fall-through also returns success and may do so
before `minimumWait` when `timeout < minimumWait`. -/
theorem detector_success_respects_minWait :
    (∀ (cfg : WaitConfig) (cancel : Nat → Bool) (fileAt : Nat → Option String) (e : Nat),
      waitForCopilotCompletionSignal cfg cancel fileAt =
        Option.some (PollOutcome.success e) → cfg.minWait ≤ e) ∧
    (∀ (cfg : HeurConfig) (cancel : Nat → Bool) (idle : Nat → Nat) (e : Nat),
      waitForCopilotCompletionHeuristic cfg cancel idle =
        Option.some (PollOutcome.success e) → cfg.minWait ≤ e) := by
  constructor
  · intro cfg cancel fileAt e h
    exact (pollLoopAux_success _ _ h).1
  · intro cfg cancel idle e h
    exact (pollLoopAux_success _ _ h).1

/-- C4 witness: a concrete signal-strategy run that succeeds at elapsed time
5, which the theorem bounds below by the configured `minWait = 3`. -/
theorem detector_success_respects_minWait_witness :
    waitForCopilotCompletionSignal ⟨20, 5, 3⟩ (fun _ => false)
      (fun _ => Option.some "completed") = Option.some (PollOutcome.success 5) ∧
    3 ≤ 5 :=
  ⟨by decide, detector_success_respects_minWait.1 ⟨20, 5, 3⟩ (fun _ => false)
    (fun _ => Option.some "completed") 5 (by decide)⟩

/-- C3: in the heuristic strategy (with cancellation never requested and a
positive poll interval): (1) if the idle condition is never met, the wait
still returns normally — best-effort success — once `timeout` elapses, via
the `timedOut` fall-through; (2) it reaches an early `success` outcome only
at an elapsed time past `minimumWait` at which the idle duration has reached
the idle threshold; and (3) conversely, the first polled tick past
`minimumWait` whose idle duration reaches the threshold, while the loop is
still running, yields exactly that early `success`. -/
theorem heuristic_wait_spec (cfg : HeurConfig) (cancel : Nat → Bool)
    (idle : Nat → Nat) (hp : 0 < cfg.poll) (hc : ∀ e, cancel e = false) :
    ((∀ t, idle t < cfg.idleThreshold) →
      ∃ e, waitForCopilotCompletionHeuristic cfg cancel idle =
        Option.some (PollOutcome.timedOut e) ∧ cfg.timeout ≤ e ∧
        heuristicReturnsNormally (PollOutcome.timedOut e) = true) ∧
    (∀ e, waitForCopilotCompletionHeuristic cfg cancel idle =
        Option.some (PollOutcome.success e) →
      cfg.minWait ≤ e ∧ cfg.idleThreshold ≤ idle e) ∧
    (∀ j, j * cfg.poll < cfg.timeout →
      cfg.minWait ≤ (j + 1) * cfg.poll →
      cfg.idleThreshold ≤ idle ((j + 1) * cfg.poll) →
      (∀ i < j, ¬(cfg.minWait ≤ (i + 1) * cfg.poll ∧
        cfg.idleThreshold ≤ idle ((i + 1) * cfg.poll))) →
      waitForCopilotCompletionHeuristic cfg cancel idle =
        Option.some (PollOutcome.success ((j + 1) * cfg.poll))) := by
  refine ⟨?_, ?_, ?_⟩
  · intro hidle
    have hk : ∀ t, decide (cfg.idleThreshold ≤ idle t) = false := fun t => by
      simp [Nat.not_le.mpr (hidle t)]
    obtain ⟨r, hr, hle⟩ :=
      pollLoopAux_timedOut_of_never hp hc hk (cfg.timeout + 1) 0
        (show cfg.timeout - 0 < cfg.timeout + 1 by omega)
    exact ⟨r, hr, hle, rfl⟩
  · intro e h
    have h' := pollLoopAux_success _ _ h
    exact ⟨h'.1, of_decide_eq_true h'.2⟩
  · intro j h1 h2 h3 hno
    have hjf : j < cfg.timeout + 1 := by
      have hj : j ≤ j * cfg.poll := Nat.le_mul_of_pos_right j hp
      exact Nat.lt_succ_of_lt (Nat.lt_of_le_of_lt hj h1)
    have key := @pollLoopAux_first_success cfg.timeout cfg.poll cfg.minWait cancel
      (fun e => decide (cfg.idleThreshold ≤ idle e))
      hc j (cfg.timeout + 1) 0 hjf (by simpa using h1)
      (by intro i hij
          have := hno i hij
          simpa using this)
      (by simpa using h2) (by simpa using decide_eq_true h3)
    simpa using key

/-- C3 witness: with `timeout = 10`, `poll = 5`, `minWait = 3`, threshold 2
and an idle duration that never reaches the threshold, the heuristic wait
returns normally at elapsed time of at least the timeout. -/
theorem heuristic_wait_spec_witness :
    ∃ e, waitForCopilotCompletionHeuristic ⟨10, 5, 3, 2⟩ (fun _ => false) (fun _ => 0) =
      Option.some (PollOutcome.timedOut e) ∧ 10 ≤ e ∧
      heuristicReturnsNormally (PollOutcome.timedOut e) = true :=
  (heuristic_wait_spec ⟨10, 5, 3, 2⟩ (fun _ => false) (fun _ => 0) (by decide)
    (fun _ => rfl)).1 (fun _ => show (0 : Nat) < 2 by decide)

/-- Deleting the status file of task `i` leaves the file of every other task
id readable with unchanged content. -/
theorem storeRead_clearStalledTask_ne (i j : Nat) (hne : j ≠ i) :
    ∀ store : LeaseStore, storeRead (clearStalledTask store i) j = storeRead store j := by
  intro store
  induction store with
  | nil => rfl
  | cons a rest ih =>
    unfold storeRead clearStalledTask
    rw [List.filter_cons]
    by_cases hai : a.1 = i
    · rw [if_neg (by simp [hai])]
      have haj : (a.1 == j) = false := by
        rw [hai]; exact beq_eq_false_iff_ne.mpr (fun h => hne h.symm)
      simp only [List.find?, haj]
      exact ih
    · rw [if_pos (by simp [hai])]
      simp only [List.find?]
      cases haj : (a.1 == j) with
      | true => rfl
      | false => exact ih

/-- C5: if at startup some lease file reads `inprogress`, the run does not
proceed silently — the operator is prompted about the (first-found) stale
task; choosing `Clear & Retry` deletes exactly that task's lease file (every
other task's lease reads back unchanged) and the run continues; declining
aborts the run with the lease store byte-for-byte unchanged. -/
theorem startupRecovery_spec (store : LeaseStore) (opClears : Bool)
    (h : ∃ e ∈ store, taskStatusIn store e.1 = LeaseStatus.inprogress) :
    (startupRecovery store opClears).2 = true ∧
    ∃ stalled, getInProgressTaskId store = Option.some stalled ∧
      (opClears = true →
        (startupRecovery store opClears).1 =
          StartupDecision.proceed (clearStalledTask store stalled) ∧
        ∀ j, j ≠ stalled →
          storeRead (clearStalledTask store stalled) j = storeRead store j) ∧
      (opClears = false →
        (startupRecovery store opClears).1 = StartupDecision.abort store) := by
  obtain ⟨en, hen, hst⟩ := h
  have hpred : (taskStatusIn store en.1 == LeaseStatus.inprogress) = true := by
    rw [hst]; rfl
  cases hf : store.find? (fun e => taskStatusIn store e.1 == LeaseStatus.inprogress) with
  | none =>
    exact absurd hpred (by simpa using List.find?_eq_none.mp hf en hen)
  | some entry =>
    have hgip : getInProgressTaskId store = Option.some entry.1 := by
      rw [getInProgressTaskId, hf]; rfl
    refine ⟨?_, entry.1, hgip, ?_, ?_⟩
    · rw [startupRecovery, hgip]
      cases opClears <;> rfl
    · intro hoc
      subst hoc
      rw [startupRecovery, hgip]
      exact ⟨rfl, fun j hj => storeRead_clearStalledTask_ne entry.1 j hj store⟩
    · intro hoc
      subst hoc
      rw [startupRecovery, hgip]
      rfl

/-- C5 witness: the theorem applied to a concrete store in which task 3's
lease reads `inprogress`, with the operator choosing to clear. -/
theorem startupRecovery_spec_witness :
    (startupRecovery [(3, "inprogress"), (5, "completed")] true).2 = true ∧
    ∃ stalled, getInProgressTaskId [(3, "inprogress"), (5, "completed")] =
        Option.some stalled ∧
      (true = true →
        (startupRecovery [(3, "inprogress"), (5, "completed")] true).1 =
          StartupDecision.proceed
            (clearStalledTask [(3, "inprogress"), (5, "completed")] stalled) ∧
        ∀ j, j ≠ stalled →
          storeRead (clearStalledTask [(3, "inprogress"), (5, "completed")] stalled) j =
            storeRead [(3, "inprogress"), (5, "completed")] j) ∧
      (true = false →
        (startupRecovery [(3, "inprogress"), (5, "completed")] true).1 =
          StartupDecision.abort [(3, "inprogress"), (5, "completed")]) :=
  startupRecovery_spec [(3, "inprogress"), (5, "completed")] true
    ⟨(3, "inprogress"), by decide, by decide⟩

/-- C7 counterexample: with PLAN.md present and STATUS.md absent, `startRalph`
takes the missing-files branch — it reports "PLAN.md or STATUS.md not found"
and returns — instead of proceeding with an empty progress store, so the
claim that an absent progress document is not fatal is false on the code. -/
theorem startRalph_missing_state_cex :
    startFilesGate true false = StartGate.missingFiles ∧
    StartGate.missingFiles ≠ StartGate.proceed := by
  refine ⟨rfl, by decide⟩

/-- C7 amended: starting a run with the progress document (STATUS.md) absent
is fatal: whatever the plan file's state, `startRalph`'s opening existence
check reports an error and returns before the plan is parsed or any task
executes; the progress store is never treated as an empty mapping. -/
theorem startRalph_missing_state_fatal :
    ∀ planExists : Bool, startFilesGate planExists false = StartGate.missingFiles := by
  intro planExists
  cases planExists <;> rfl

/-- C8 counterexample: a lease file containing `" completed"` is not the
literal string `completed`, yet `getTaskStatus` reports `completed`, because
the code trims the content before comparing; so "returns completed exactly
when the stored content is the literal string" is false on the code. -/
theorem getTaskStatus_literal_cex :
    getTaskStatus (Option.some " completed") = LeaseStatus.completed ∧
    " completed" ≠ "completed" := by
  refine ⟨by decide, by decide⟩

/-- C8 amended: for every possible lease-file content, the read returns
`inprogress` or `completed` exactly when the stored content, after trimming
surrounding whitespace, equals the corresponding literal string, and returns
`none` for any other content and for an absent or unreadable file. -/
theorem getTaskStatus_spec (content : Option String) :
    (getTaskStatus content = LeaseStatus.inprogress ↔
      ∃ c, content = Option.some c ∧ strTrim c = "inprogress") ∧
    (getTaskStatus content = LeaseStatus.completed ↔
      ∃ c, content = Option.some c ∧ strTrim c = "completed") ∧
    (getTaskStatus content = LeaseStatus.none ↔
      content = Option.none ∨
      ∃ c, content = Option.some c ∧ strTrim c ≠ "inprogress" ∧ strTrim c ≠ "completed") := by
  cases content with
  | none => simp [getTaskStatus]
  | some c =>
    by_cases h1 : strTrim c = "inprogress"
    · have h1' : strTrim c ≠ "completed" := by rw [h1]; decide
      simp [getTaskStatus, h1, h1']
    · by_cases h2 : strTrim c = "completed"
      · simp [getTaskStatus, h1, h2]
      · simp [getTaskStatus, h1, h2]

/-- C8 witness: the amended characterisation applied to a content with a
trailing newline, which trims to the `completed` literal. -/
theorem getTaskStatus_spec_witness :
    getTaskStatus (Option.some "completed
") = LeaseStatus.completed :=
  (getTaskStatus_spec (Option.some "completed
")).2.1.mpr ⟨"completed
", rfl, by decide⟩

/-- Replacing the first matching line preserves the number of lines. -/
theorem replaceFirstLine_length (p : Line → Bool) (f : Line → Line) :
    ∀ ls : List Line, (replaceFirstLine p f ls).length = ls.length := by
  intro ls
  induction ls with
  | nil => rfl
  | cons a as ih =>
    by_cases h : p a = true
    · simp [replaceFirstLine, h]
    · simp [replaceFirstLine, h, ih]

/-- A line that does not satisfy the pattern is returned unchanged, at its
original position. -/
theorem replaceFirstLine_get?_of_neg (p : Line → Bool) (f : Line → Line) :
    ∀ (ls : List Line) (i : Nat) (l : Line), ls.get? i = Option.some l → p l = false →
      (replaceFirstLine p f ls).get? i = Option.some l := by
  intro ls
  induction ls with
  | nil => intro i l h _; simp at h
  | cons a as ih =>
    intro i l h hp
    cases i with
    | zero =>
      rw [List.get?_cons_zero] at h
      injection h with h
      subst h
      simp [replaceFirstLine, hp]
    | succ i =>
      rw [List.get?_cons_succ] at h
      by_cases hpa : p a = true
      · simp only [replaceFirstLine, hpa, if_pos, List.get?_cons_succ]
        exact h
      · simp only [replaceFirstLine, hpa, if_neg, List.get?_cons_succ]
        exact ih i l h hp

/-- At most one line position differs after the replacement. -/
theorem replaceFirstLine_atMostOne (p : Line → Bool) (f : Line → Line) :
    ∀ ls : List Line, ∃ i : Nat, ∀ j, j ≠ i →
      (replaceFirstLine p f ls).get? j = ls.get? j := by
  intro ls
  induction ls with
  | nil => exact ⟨0, fun _ _ => rfl⟩
  | cons a as ih =>
    by_cases hpa : p a = true
    · refine ⟨0, fun j hj => ?_⟩
      cases j with
      | zero => exact absurd rfl hj
      | succ j => simp [replaceFirstLine, hpa]
    · obtain ⟨i, hi⟩ := ih
      refine ⟨i + 1, fun j hj => ?_⟩
      cases j with
      | zero => simp [replaceFirstLine, hpa]
      | succ j =>
        simp only [replaceFirstLine, hpa, if_neg, List.get?_cons_succ]
        exact hi j (by omega)

/-- A line matching the row pattern for `idStr` is keyed by `idStr`: its
first cell trims to exactly those digits. -/
theorem rowIdCell_of_rowMatches (idStr line : Line)
    (h : rowMatches idStr line = true) : rowIdCell line = Option.some idStr := by
  rw [rowMatches] at h
  rw [rowIdCell]
  cases hc : rowCells line with
  | none => rw [hc] at h; cases h
  | some cells =>
    obtain ⟨c1, c2, c3, c4, c5, c6⟩ := cells
    rw [hc] at h
    simp only [Bool.and_eq_true] at h
    exact congrArg Option.some (eq_of_beq h.1)

/-- C9: for every document, step id, status and notes, `updateStepStatus`
keeps the number of lines, leaves every line that does not match the row
pattern for that id byte-for-byte unchanged (in particular every table row
whose trimmed first cell is not that id's digit string, and all text outside
the matched row), and changes at most one line position. -/
theorem updateStepStatus_frame (doc : List Line) (now : String) (stepId : Nat)
    (status : StepStatus) (notes : String) :
    (updateStepStatus now stepId status notes doc).length = doc.length ∧
    (∀ i line, doc.get? i = Option.some line →
      rowMatches (Nat.repr stepId).toList line = false →
      (updateStepStatus now stepId status notes doc).get? i = Option.some line) ∧
    (∀ i line, doc.get? i = Option.some line →
      rowIdCell line ≠ Option.some (Nat.repr stepId).toList →
      (updateStepStatus now stepId status notes doc).get? i = Option.some line) ∧
    (∃ i, ∀ j, j ≠ i →
      (updateStepStatus now stepId status notes doc).get? j = doc.get? j) := by
  refine ⟨replaceFirstLine_length _ _ _, ?_, ?_, replaceFirstLine_atMostOne _ _ _⟩
  · intro i line h hm
    exact replaceFirstLine_get?_of_neg _ _ doc i line h hm
  · intro i line h hid
    apply replaceFirstLine_get?_of_neg _ _ doc i line h
    cases hm : rowMatches (Nat.repr stepId).toList line with
    | false => rfl
    | true => exact absurd (rowIdCell_of_rowMatches _ _ hm) hid

/-- C9 witness: updating step 2 leaves both a non-row line and the row keyed
by id 1 unchanged in a concrete document. -/
theorem updateStepStatus_frame_witness :
    (updateStepStatus "TS" 2 StepStatus.done "note"
      ["| 1 | P | x | `pending` |  |  |".toList, "some prose".toList]).get? 0 =
      Option.some ("| 1 | P | x | `pending` |  |  |".toList) :=
  (updateStepStatus_frame ["| 1 | P | x | `pending` |  |  |".toList, "some prose".toList]
    "TS" 2 StepStatus.done "note").2.2.1 0 _ rfl (by decide)

/-- C10: in the quick-status summary written back to the progress document,
the `Pending` row reports the number of `pending` entries plus the number of
`skipped` entries (skipped steps are folded into Pending; no row reports a
skipped count of its own), while the `Completed`, `In Progress` and `Failed`
rows each report exactly the count of their own status, and `Total Steps`
reports the number of tracked rows. -/
theorem updateQuickStatus_counts (tracked : List TrackedStep) :
    (updateQuickStatusLines tracked).pendingLine =
      "| Pending | " ++ Nat.repr
        (tracked.countP (fun s => s.status == StepStatus.pending) +
         tracked.countP (fun s => s.status == StepStatus.skipped)) ++ " |" ∧
    (updateQuickStatusLines tracked).completedLine =
      "| Completed | " ++ Nat.repr
        (tracked.countP (fun s => s.status == StepStatus.done)) ++ " |" ∧
    (updateQuickStatusLines tracked).inProgressLine =
      "| In Progress | " ++ Nat.repr
        (tracked.countP (fun s => s.status == StepStatus.inProgress)) ++ " |" ∧
    (updateQuickStatusLines tracked).failedLine =
      "| Failed | " ++ Nat.repr
        (tracked.countP (fun s => s.status == StepStatus.failed)) ++ " |" ∧
    (updateQuickStatusLines tracked).totalLine =
      "| Total Steps | " ++ Nat.repr tracked.length ++ " |" := by
  simp [updateQuickStatusLines, List.countP_eq_length_filter]
